import Mathlib

/-!
# Verification of the crypto RSI-correlation pipeline

Shallow embedding of the event-driven analysis pipeline
(`crypto_analyzer.py`, `analysis_job.py`, `rsi_calculator.py`,
`database_manager.py`, `data_fetcher.py`) and proofs about it.

Conventions:
* Python floats are modelled as `ℚ`; `NaN` is modelled as `Option.none`;
  the `float("inf")` low-cap threshold is modelled with `WithTop ℚ`.
* pandas series are modelled as lists of `(timestamp, value)` pairs
  (timestamps as `ℕ`), or positionally as `List ℚ` for the RSI pipeline.
* Stateful handlers become explicit state-passing functions; the events
  they publish are returned as lists.
-/

namespace CryptoPipeline

/-! ## Low-cap threshold (`CryptoAnalyzer._start_analysis_if_ready`)

`pd.Series(market_cap_values).quantile(low_cap_percentile / 100)` uses
pandas' default linear interpolation: on the ascending sorted values
`s[0..n-1]`, the quantile at `q` is `s[k] + (h - k) * (s[k+1] - s[k])`
where `h = q * (n - 1)` and `k = ⌊h⌋`. -/

/-- Linear-interpolation quantile of a list of rationals, as computed by
`pd.Series(xs).quantile(q)` with the default `interpolation="linear"`. -/
def quantileLinear (xs : List ℚ) (q : ℚ) : ℚ :=
  let s := List.insertionSort (· ≤ ·) xs
  let n : ℚ := (s.length : ℚ)
  let h : ℚ := q * (n - 1)
  let k : ℕ := (Int.floor h).toNat
  let x0 := s.getD k 0
  let x1 := s.getD (k + 1) x0
  x0 + (h - (k : ℚ)) * (x1 - x0)

/-- `CryptoAnalyzer` low-cap threshold: the analyzer initialises
`low_cap_threshold = float("inf")` and replaces it by the quantile of the
strictly positive market caps only when at least one positive cap exists
(`if market_cap_values: self.low_cap_threshold = ...quantile(...)`). -/
def lowCapThreshold (caps : List ℚ) (lowCapPercentile : ℚ) : WithTop ℚ :=
  let positives := caps.filter (fun mc => 0 < mc)
  if positives = [] then ⊤
  else ((quantileLinear positives (lowCapPercentile / 100) : ℚ) : WithTop ℚ)

/-- `low_cap_quartile = market_cap <= self.low_cap_threshold`
(`CryptoAnalyzer.analyze_correlation`); in Python `x <= inf` is `True`. -/
def lowCapQuartile (marketCap : ℚ) (threshold : WithTop ℚ) : Bool :=
  decide ((marketCap : WithTop ℚ) ≤ threshold)

/-! ## Retry policies (`data_fetcher.py`)

Each `@retry(...)` decorator from `tenacity` is transcribed as a record of
its declared parameters: `stop_after_attempt(a)` gives `attempts = a`,
`wait_exponential(multiplier=m, min=lo, max=hi)` gives the remaining
fields. -/

/-- Declared tenacity retry parameters. -/
structure RetryPolicy where
  attempts : ℕ
  waitMultiplier : ℚ
  waitMin : ℚ
  waitMax : ℚ
  deriving DecidableEq, Repr

/-- Retry on the per-page CoinGecko fetch inside
`DataFetcher._fetch_top_coins_task` (`fetch_one_page`):
`stop_after_attempt(4)`, `wait_exponential(multiplier=2, min=5, max=30)`. -/
def fetchOnePageRetry : RetryPolicy :=
  { attempts := 4, waitMultiplier := 2, waitMin := 5, waitMax := 30 }

/-- Retry on `DataFetcher._fetch_historical_prices_task`:
`stop_after_attempt(3)`, `wait_exponential(multiplier=2, min=5, max=20)`. -/
def fetchHistoricalPricesRetry : RetryPolicy :=
  { attempts := 3, waitMultiplier := 2, waitMin := 5, waitMax := 20 }

/-- Retry on `DataFetcher._fetch_precision_data_task`:
`stop_after_attempt(3)`, `wait_exponential(multiplier=2, min=5, max=20)`. -/
def fetchPrecisionDataRetry : RetryPolicy :=
  { attempts := 3, waitMultiplier := 2, waitMin := 5, waitMax := 20 }

/-- `tenacity.wait_exponential`: the wait before retry number `n` is
`multiplier * 2^n` clamped into `[waitMin, waitMax]`. -/
def retryWait (p : RetryPolicy) (n : ℕ) : ℚ :=
  max p.waitMin (min (p.waitMultiplier * 2 ^ n) p.waitMax)

/-! ## Correlation pass (`CryptoAnalyzer.analyze_correlation`)

RSI series are timestamp-indexed lists of rationals; the Pearson
correlation itself (`pd.Series.corr`, which needs square roots) is kept
abstract as a parameter `corrFn` returning `none` for NaN, so the theorems
below hold for the actual numeric correlation as a special case. -/

/-- Subset of the analyzer configuration used by the correlation pass. -/
structure AnalyzerConfig where
  rsiPeriod : ℕ
  correlationThreshold : ℚ
  deriving DecidableEq, Repr

/-- The dictionary published on `CorrelationAnalyzed`
(`analyze_correlation`, `result = {...}`). -/
structure CorrelationResult where
  coinId : String
  coinSymbol : String
  correlation : ℚ
  marketCap : ℚ
  lowCapQuartile : Bool
  timeframe : String
  deriving DecidableEq, Repr

/-- `btc_rsi.index.intersection(coin_rsi.index)`: timestamps of the BTC
series that also occur in the coin series, in BTC-index order. -/
def commonIndex (btcRsi coinRsi : List (ℕ × ℚ)) : List ℕ :=
  (btcRsi.map Prod.fst).filter (fun t => t ∈ coinRsi.map Prod.fst)

/-- `series.loc[idx]`: the values of `series` at the timestamps of `idx`. -/
def restrictValues (series : List (ℕ × ℚ)) (idx : List ℕ) : List ℚ :=
  idx.filterMap (fun t => series.lookup t)

/-- `str.lower()`: lower-case the characters of a string
(`String.toLower`, written on the character list so that it evaluates by
kernel reduction). -/
def lowerStr (s : String) : String :=
  String.mk (s.data.map Char.toLower)

/-- `str.upper()`. -/
def upperStr (s : String) : String :=
  String.mk (s.data.map Char.toUpper)

/-- `self.market_caps.get(coin_id_symbol[1].lower(), 0)`. -/
def marketCapOf (mcaps : List (String × ℚ)) (symbol : String) : ℚ :=
  ((mcaps.lookup (lowerStr symbol)).getD 0)

/-- `CryptoAnalyzer.analyze_correlation`: returns the published
`CorrelationAnalyzed` result, or `none` when the pass discards the pair
(short common index, NaN correlation, or sub-threshold correlation). -/
def analyzeCorrelation (corrFn : List ℚ → List ℚ → Option ℚ)
    (cfg : AnalyzerConfig) (mcaps : List (String × ℚ)) (th : WithTop ℚ)
    (pair : String × String) (coinRsi btcRsi : List (ℕ × ℚ)) (tf : String) :
    Option CorrelationResult :=
  if (commonIndex btcRsi coinRsi).length < cfg.rsiPeriod then none
  else
    match corrFn (restrictValues coinRsi (commonIndex btcRsi coinRsi))
                 (restrictValues btcRsi (commonIndex btcRsi coinRsi)) with
    | none => none
    | some c =>
      if |c| < cfg.correlationThreshold then none
      else
        some { coinId := pair.1
               coinSymbol := pair.2
               correlation := c
               marketCap := marketCapOf mcaps pair.2
               lowCapQuartile := lowCapQuartile (marketCapOf mcaps pair.2) th
               timeframe := tf }

end CryptoPipeline

namespace CryptoPipeline

/-- Claim C3: `analyze_correlation` publishes a `CorrelationAnalyzed`
event if and only if the common timestamp index has length at least
`rsi_period`, the correlation over it is not NaN, and its absolute value
is at least `correlation_threshold`. -/
theorem correlation_emission_iff (corrFn : List ℚ → List ℚ → Option ℚ)
    (cfg : AnalyzerConfig) (mcaps : List (String × ℚ)) (th : WithTop ℚ)
    (pair : String × String) (coinRsi btcRsi : List (ℕ × ℚ)) (tf : String) :
    (analyzeCorrelation corrFn cfg mcaps th pair coinRsi btcRsi tf).isSome = true ↔
      (cfg.rsiPeriod ≤ (commonIndex btcRsi coinRsi).length ∧
       ∃ c, corrFn (restrictValues coinRsi (commonIndex btcRsi coinRsi))
                   (restrictValues btcRsi (commonIndex btcRsi coinRsi)) = some c ∧
            cfg.correlationThreshold ≤ |c|) := by
  unfold analyzeCorrelation
  by_cases h1 : (commonIndex btcRsi coinRsi).length < cfg.rsiPeriod
  · rw [if_pos h1]
    simp only [Option.isSome_none, Bool.false_eq_true, false_iff]
    rintro ⟨hle, -⟩
    omega
  · rw [if_neg h1]
    rcases hc : corrFn (restrictValues coinRsi (commonIndex btcRsi coinRsi))
        (restrictValues btcRsi (commonIndex btcRsi coinRsi)) with _ | c
    · simp only [hc, Option.isSome_none, Bool.false_eq_true, false_iff]
      rintro ⟨-, c, hc2, -⟩
      simp at hc2
    · simp only [hc]
      by_cases h2 : |c| < cfg.correlationThreshold
      · rw [if_pos h2]
        simp only [Option.isSome_none, Bool.false_eq_true, false_iff]
        rintro ⟨-, d, hd, hthr⟩
        rw [Option.some_inj] at hd
        subst hd
        exact absurd hthr (not_le.mpr h2)
      · rw [if_neg h2]
        simp only [Option.isSome_some, true_iff]
        exact ⟨not_lt.mp h1, c, rfl, not_lt.mp h2⟩

/-- Claim C6 (counterexample): with market caps `[10, 20, 30, 40, 100]`
and percentile 25, the code computes threshold 20 (pandas linear
interpolation), not 17.5, and the coin with cap 20 is also marked
low-cap — refuting the claimed threshold 17.5 and the claim that only
the cap-10 coin qualifies. -/
theorem low_cap_example_counterexample :
    lowCapThreshold [10, 20, 30, 40, 100] 25 = ((20 : ℚ) : WithTop ℚ) ∧
    lowCapThreshold [10, 20, 30, 40, 100] 25 ≠ ((35 / 2 : ℚ) : WithTop ℚ) ∧
    lowCapQuartile 20 (lowCapThreshold [10, 20, 30, 40, 100] 25) = true := by
  have h : lowCapThreshold [10, 20, 30, 40, 100] 25 = ((20 : ℚ) : WithTop ℚ) := by
    norm_num [lowCapThreshold, quantileLinear, List.insertionSort, List.orderedInsert,
      List.cons_ne_nil]
  refine ⟨h, ?_, ?_⟩
  · rw [h]
    intro heq
    rw [WithTop.coe_eq_coe] at heq
    norm_num at heq
  · rw [h]
    simp only [lowCapQuartile, WithTop.coe_le_coe, decide_eq_true_eq]
    norm_num

/-- Claim C6 (amended): the threshold over caps `[10, 20, 30, 40, 100]`
at percentile 25 is 20, and exactly the coins with caps 10 and 20 are
marked `low_cap_quartile`. -/
theorem low_cap_example_amended :
    lowCapThreshold [10, 20, 30, 40, 100] 25 = ((20 : ℚ) : WithTop ℚ) ∧
    lowCapQuartile 10 (lowCapThreshold [10, 20, 30, 40, 100] 25) = true ∧
    lowCapQuartile 20 (lowCapThreshold [10, 20, 30, 40, 100] 25) = true ∧
    lowCapQuartile 30 (lowCapThreshold [10, 20, 30, 40, 100] 25) = false ∧
    lowCapQuartile 40 (lowCapThreshold [10, 20, 30, 40, 100] 25) = false ∧
    lowCapQuartile 100 (lowCapThreshold [10, 20, 30, 40, 100] 25) = false := by
  have h : lowCapThreshold [10, 20, 30, 40, 100] 25 = ((20 : ℚ) : WithTop ℚ) := by
    norm_num [lowCapThreshold, quantileLinear, List.insertionSort, List.orderedInsert,
      List.cons_ne_nil]
  rw [h]
  simp only [lowCapQuartile, WithTop.coe_le_coe, decide_eq_true_eq, decide_eq_false_iff_not,
    not_le]
  norm_num

/-- Claim C7 (counterexample): when no retained coin has a strictly
positive market cap the threshold is `+∞` (`⊤`), but then `market_cap <=
inf` is `True` in Python, so a produced `CorrelationResult` carries
`low_cap_quartile = true`, not `false` as claimed. -/
theorem no_positive_caps_counterexample :
    lowCapThreshold [0] 25 = ⊤ ∧
    (analyzeCorrelation (fun _ _ => some 1) ⟨2, 7 / 10⟩ [] (lowCapThreshold [0] 25)
        ("somecoin", "abc") [(0, 48), (1, 58)] [(0, 50), (1, 60)] "1d").map
      (fun r => r.lowCapQuartile) = some true := by
  have hth : lowCapThreshold [0] 25 = ⊤ := by
    simp [lowCapThreshold]
  refine ⟨hth, ?_⟩
  rw [hth]
  norm_num [analyzeCorrelation, commonIndex, restrictValues, lowCapQuartile, marketCapOf,
    List.lookup, List.filter]

/-- Claim C7 (amended): if no retained coin has a strictly positive
market cap, the low-cap threshold is `+∞` and every coin qualifies as
low-cap: every `CorrelationResult` produced in that run has
`low_cap_quartile = true`. -/
theorem no_positive_caps_all_low_cap (caps : List ℚ) (pct : ℚ) (cap : ℚ)
    (h : caps.filter (fun mc => 0 < mc) = []) :
    lowCapThreshold caps pct = ⊤ ∧
    lowCapQuartile cap (lowCapThreshold caps pct) = true ∧
    ∀ corrFn cfg mcaps pair coinRsi btcRsi tf r,
      analyzeCorrelation corrFn cfg mcaps (lowCapThreshold caps pct) pair coinRsi btcRsi tf
          = some r →
      r.lowCapQuartile = true := by
  have hth : lowCapThreshold caps pct = ⊤ := by
    simp [lowCapThreshold, h]
  refine ⟨hth, ?_, ?_⟩
  · rw [hth]
    simp [lowCapQuartile]
  · intro corrFn cfg mcaps pair coinRsi btcRsi tf r hr
    rw [hth] at hr
    unfold analyzeCorrelation at hr
    by_cases h1 : (commonIndex btcRsi coinRsi).length < cfg.rsiPeriod
    · rw [if_pos h1] at hr
      exact absurd hr (by simp)
    · rw [if_neg h1] at hr
      split at hr
      · exact absurd hr (by simp)
      · split at hr
        · exact absurd hr (by simp)
        · rw [Option.some_inj] at hr
          rw [← hr]
          simp [lowCapQuartile]

/-- Witness for `no_positive_caps_all_low_cap` at caps `[0, -5]`. -/
theorem no_positive_caps_all_low_cap_witness :
    lowCapThreshold [0, -5] 25 = ⊤ ∧
    lowCapQuartile 7 (lowCapThreshold [0, -5] 25) = true :=
  ⟨(no_positive_caps_all_low_cap [0, -5] 25 7 (by norm_num [List.filter])).1,
   (no_positive_caps_all_low_cap [0, -5] 25 7 (by norm_num [List.filter])).2.1⟩

/-- Claim C9 (counterexample): the per-page top-coins retry
(`fetch_one_page` in `DataFetcher._fetch_top_coins_task`) is declared
with `stop_after_attempt(4)` and `wait_exponential(..., max=30)`, so the
claimed uniform policy `attempts=3`, backoff bounded above by 20 seconds
is false for that task. -/
theorem top_coins_retry_counterexample :
    fetchOnePageRetry.attempts = 4 ∧ fetchOnePageRetry.waitMax = 30 ∧
    ¬(fetchOnePageRetry.attempts = 3 ∧ fetchOnePageRetry.waitMax = 20) := by
  refine ⟨rfl, rfl, ?_⟩
  rintro ⟨h, -⟩
  simp [fetchOnePageRetry] at h

/-- Claim C9 (amended): the historical-prices and precision-data tasks
declare `attempts=3` with exponential backoff clamped into `[5s, 20s]`,
while the per-page top-coins fetch declares `attempts=4` with backoff
clamped into `[5s, 30s]`. -/
theorem retry_policies_amended :
    fetchHistoricalPricesRetry = ⟨3, 2, 5, 20⟩ ∧
    fetchPrecisionDataRetry = ⟨3, 2, 5, 20⟩ ∧
    fetchOnePageRetry = ⟨4, 2, 5, 30⟩ ∧
    (∀ n : ℕ, 5 ≤ retryWait fetchHistoricalPricesRetry n ∧
      retryWait fetchHistoricalPricesRetry n ≤ 20) ∧
    (∀ n : ℕ, 5 ≤ retryWait fetchPrecisionDataRetry n ∧
      retryWait fetchPrecisionDataRetry n ≤ 20) ∧
    (∀ n : ℕ, 5 ≤ retryWait fetchOnePageRetry n ∧ retryWait fetchOnePageRetry n ≤ 30) := by
  refine ⟨rfl, rfl, rfl, ?_, ?_, ?_⟩ <;> intro n <;>
    exact ⟨le_max_left _ _,
      max_le
        (by norm_num [fetchHistoricalPricesRetry, fetchPrecisionDataRetry, fetchOnePageRetry])
        (min_le_right _ _)⟩

end CryptoPipeline

namespace CryptoPipeline

/-! ## RSI computation (`RSICalculator._calculate_rsi_task`)

The pandas pipeline

```
delta = data.astype(float).diff()
gain  = (delta.where(delta > 0, 0)).rolling(window=self.periods).mean()
loss  = (-delta.where(delta < 0, 0)).rolling(window=self.periods).mean()
loss  = loss.replace(0, np.nan)
rs    = gain / loss
rsi   = (100 - (100 / (1 + rs))).dropna()
```

is embedded positionally: position `i` of the price list corresponds to
row `i` of the series; `NaN` is `none`.  `diff()` makes position 0 NaN;
`Series.where(cond, 0)` turns that NaN into 0 because `NaN > 0` and
`NaN < 0` are both false; the rolling mean is NaN until a full window of
`period` positions is available (and for a window size of 0, for which
pandas would raise). -/

/-- `data.astype(float).diff()` at position `i`. -/
def deltaAt (p : List ℚ) (i : ℕ) : Option ℚ :=
  if 0 < i ∧ i < p.length then some (p.getD i 0 - p.getD (i - 1) 0) else none

/-- `delta.where(delta > 0, 0)` at position `i` (NaN compares false and
becomes 0). -/
def gainAt (p : List ℚ) (i : ℕ) : ℚ :=
  match deltaAt p i with
  | some d => if 0 < d then d else 0
  | none => 0

/-- `(-delta.where(delta < 0, 0))` at position `i`. -/
def lossAt (p : List ℚ) (i : ℕ) : ℚ :=
  match deltaAt p i with
  | some d => if d < 0 then -d else 0
  | none => 0

/-- `gain.rolling(window=period).mean()` at position `i`: the mean of the
gains at positions `i - period + 1 .. i` once a full window exists. -/
def avgGain (p : List ℚ) (period i : ℕ) : Option ℚ :=
  if 0 < period ∧ period ≤ i + 1 ∧ i < p.length then
    some ((((List.range period).map (fun j => gainAt p (i - j))).sum) / period)
  else none

/-- `loss.rolling(window=period).mean()` at position `i`. -/
def avgLoss (p : List ℚ) (period i : ℕ) : Option ℚ :=
  if 0 < period ∧ period ≤ i + 1 ∧ i < p.length then
    some ((((List.range period).map (fun j => lossAt p (i - j))).sum) / period)
  else none

/-- `loss.replace(0, np.nan)` at position `i`. -/
def lossDenomAt (p : List ℚ) (period i : ℕ) : Option ℚ :=
  (avgLoss p period i).bind (fun l => if l = 0 then none else some l)

/-- `rs = gain / loss` at position `i` (NaN propagates). -/
def rsAt (p : List ℚ) (period i : ℕ) : Option ℚ :=
  (avgGain p period i).bind (fun g => (lossDenomAt p period i).map (fun l => g / l))

/-- `rsi = 100 - (100 / (1 + rs))` at position `i`. -/
def rsiAt (p : List ℚ) (period i : ℕ) : Option ℚ :=
  (rsAt p period i).map (fun rs => 100 - 100 / (1 + rs))

/-- `rsi.dropna()`: the emitted RSI series as (position, value) pairs. -/
def calculateRSI (p : List ℚ) (period : ℕ) : List (ℕ × ℚ) :=
  (List.range p.length).filterMap (fun i => (rsiAt p period i).map (fun v => (i, v)))

/-- A zero rolling average loss is replaced by NaN, so the RSI at that
position is NaN. -/
theorem rsiAt_of_avgLoss_zero (p : List ℚ) (period i : ℕ)
    (h : avgLoss p period i = some 0) : rsiAt p period i = none := by
  unfold rsiAt rsAt lossDenomAt
  rw [h]
  simp

/-- Positions whose RSI is NaN are removed by `dropna()`. -/
theorem not_mem_calculateRSI_of_none (p : List ℚ) (period i : ℕ) (v : ℚ)
    (h : rsiAt p period i = none) : (i, v) ∉ calculateRSI p period := by
  intro hv
  unfold calculateRSI at hv
  rw [List.mem_filterMap] at hv
  obtain ⟨j, -, hjv⟩ := hv
  rcases Option.map_eq_some'.mp hjv with ⟨u, hu, huv⟩
  have hji : j = i := congrArg Prod.fst huv
  rw [hji, h] at hu
  exact Option.noConfusion hu

end CryptoPipeline

namespace CryptoPipeline

/-- Claim C4 (counterexample): with prices `[1, 2, 3, 4]` and period 2,
the rolling average loss at position 2 is 0 with a full window of deltas
available, yet position 2 does not appear in the emitted RSI series with
value 100 (it is dropped): `loss.replace(0, np.nan)` plus `dropna()`
removes such positions instead of forcing RSI = 100. -/
theorem rsi_zero_avg_loss_counterexample :
    avgLoss [1, 2, 3, 4] 2 2 = some 0 ∧
    (2, (100 : ℚ)) ∉ calculateRSI [1, 2, 3, 4] 2 := by
  have h : avgLoss [1, 2, 3, 4] 2 2 = some 0 := by
    norm_num [avgLoss, lossAt, deltaAt, List.range_succ]
  exact ⟨h, not_mem_calculateRSI_of_none _ _ _ _ (rsiAt_of_avgLoss_zero _ _ _ h)⟩

/-- Claim C4 (amended): for every position where the rolling average loss
over the last `period` deltas equals 0, the emitted RSI series does not
contain that position at all — the zero average loss is replaced by NaN
and the position is dropped, rather than emitted with value 100. -/
theorem rsi_zero_avg_loss_dropped (p : List ℚ) (period i : ℕ)
    (h : avgLoss p period i = some 0) :
    ∀ v : ℚ, (i, v) ∉ calculateRSI p period := fun v =>
  not_mem_calculateRSI_of_none p period i v (rsiAt_of_avgLoss_zero p period i h)

/-- Witness for `rsi_zero_avg_loss_dropped` at prices `[1, 2, 3, 4]`,
period 2, position 3. -/
theorem rsi_zero_avg_loss_dropped_witness :
    avgLoss [1, 2, 3, 4] 2 3 = some 0 ∧
    (3, (55 : ℚ)) ∉ calculateRSI [1, 2, 3, 4] 2 := by
  have h : avgLoss [1, 2, 3, 4] 2 3 = some 0 := by
    norm_num [avgLoss, lossAt, deltaAt, List.range_succ]
  exact ⟨h, rsi_zero_avg_loss_dropped [1, 2, 3, 4] 2 3 h 55⟩

end CryptoPipeline

namespace CryptoPipeline

/-- The `RSICalculated` event payload built at the end of
`RSICalculator._calculate_rsi_task` (`rsi_series_json` is `none` when the
Python code sends `None`). -/
structure RSICalculatedEvent where
  coinIdSymbol : String × String
  rsiSeriesJson : Option (List (ℕ × ℚ))
  timeframe : String
  deriving DecidableEq, Repr

/-- The RSI series computed by the `try` block of
`RSICalculator._calculate_rsi_task`, or `none` when a `ValueError` is
raised and caught: `self.periods is None`, or
`data is None or data.empty or len(data) < self.periods + 1`. -/
def calculateRsiSeries (periods : Option ℕ) (data : Option (List ℚ)) :
    Option (List (ℕ × ℚ)) :=
  match periods, data with
  | none, _ => none
  | _, none => none
  | some per, some d =>
    if d = [] ∨ d.length < per + 1 then none else some (calculateRSI d per)

/-- `RSICalculator._calculate_rsi_task`: the list of events published to
the service bus.  When a bus is attached exactly one `RSICalculated`
event is published; its payload is `None` when the computed series is
missing or empty (`rsi_json = rsi_series.to_json(...) if rsi_series is
not None and not rsi_series.empty else None`). -/
def calculateRsiTask (periods : Option ℕ) (busAttached : Bool)
    (pair : String × String) (data : Option (List ℚ)) (tf : String) :
    List RSICalculatedEvent :=
  if busAttached then
    [{ coinIdSymbol := pair
       rsiSeriesJson :=
         match calculateRsiSeries periods data with
         | some r => if r = [] then none else some r
         | none => none
       timeframe := tf }]
  else []

/-- Claim C10: with a service bus attached, `_calculate_rsi_task`
publishes exactly one `RSICalculated` event for the requested
`(coin, timeframe)`, and its `rsi_series_json` is `None` precisely when
the computation failed (period unconfigured; input series missing, empty,
or shorter than `period + 1`) or the resulting RSI series is empty. -/
theorem rsi_calculated_published_exactly_once (periods : Option ℕ)
    (pair : String × String) (data : Option (List ℚ)) (tf : String) :
    ∃ ev : RSICalculatedEvent,
      calculateRsiTask periods true pair data tf = [ev] ∧
      ev.coinIdSymbol = pair ∧ ev.timeframe = tf ∧
      (ev.rsiSeriesJson = none ↔
        periods = none ∨ data = none ∨
        ∃ per d, periods = some per ∧ data = some d ∧
          (d = [] ∨ d.length < per + 1 ∨ calculateRSI d per = [])) := by
  refine ⟨_, rfl, rfl, rfl, ?_⟩
  cases periods with
  | none => simp [calculateRsiSeries]
  | some per =>
    cases data with
    | none => simp [calculateRsiSeries]
    | some d =>
      by_cases hd : d = [] ∨ d.length < per + 1
      · simp only [calculateRsiSeries, if_pos hd]
        simp only [Option.some.injEq, reduceCtorEq, false_or]
        constructor
        · intro _
          exact ⟨per, d, rfl, rfl, by tauto⟩
        · intro _
          trivial
      · simp only [calculateRsiSeries, if_neg hd]
        push_neg at hd
        by_cases hr : calculateRSI d per = []
        · simp only [if_pos hr, Option.some.injEq, reduceCtorEq, false_or]
          constructor
          · intro _
            exact ⟨per, d, rfl, rfl, Or.inr (Or.inr hr)⟩
          · intro _
            trivial
        · simp only [if_neg hr, Option.some.injEq, reduceCtorEq, false_or, false_iff,
            not_exists]
          intro per2 d2
          rintro ⟨hper2, hd2, hcase⟩
          subst hper2
          subst hd2
          rcases hcase with h1 | h2 | h3
          · exact hd.1 h1
          · omega
          · exact hr h3

end CryptoPipeline

namespace CryptoPipeline

/-! ## Database writes (`DatabaseManager._save_prices_task`,
`DatabaseManager._save_rsi_task`)

A table is a list of rows in insertion order.  Each row is written with a
plain `INSERT INTO ...` (`cursor.execute`) inside a Python `for` loop;
a duplicate primary key raises `sqlite3.IntegrityError`, which aborts the
remaining iterations and is caught by the surrounding `except` (the
`commit` is skipped, but rows inserted before the conflict stay pending
on the connection and are flushed by a later commit, so they are kept in
the model). -/

/-- Sequential row insertion that stops at the first primary-key conflict
(the raised `IntegrityError` aborts the whole loop). -/
def insertRowsAbortOnConflict {α κ : Type} [DecidableEq κ] (key : α → κ) :
    List α → List α → List α
  | table, [] => table
  | table, r :: rs =>
    if table.any (fun x => key x = key r) then table
    else insertRowsAbortOnConflict key (table ++ [r]) rs

/-- A row of the `prices` table; primary key
`(coin_id, timestamp, session_guid)`. -/
structure PriceRow where
  coinId : String
  coinSymbol : String
  timestampMs : ℤ
  sessionGuid : Option String
  openPrice : ℚ
  highPrice : ℚ
  lowPrice : ℚ
  closePrice : ℚ
  deriving DecidableEq, Repr

/-- Primary key of `prices`: `(coin_id, timestamp, session_guid)`. -/
def priceKey (r : PriceRow) : String × ℤ × Option String :=
  (r.coinId, r.timestampMs, r.sessionGuid)

/-- `DatabaseManager._save_prices_task`: early-return on an empty
DataFrame, otherwise insert each row, aborting on the first conflict. -/
def savePricesTask (table rows : List PriceRow) : List PriceRow :=
  if rows = [] then table else insertRowsAbortOnConflict priceKey table rows

/-- A row of the `rsi` table; primary key
`(coin_id, timestamp, session_guid)`; `value = none` models a NaN RSI
entry, which the loop skips (`if not pd.isna(rsi_value)`). -/
structure RsiRow where
  coinId : String
  coinSymbol : String
  timestampMs : ℤ
  sessionGuid : Option String
  value : Option ℚ
  deriving DecidableEq, Repr

/-- Primary key of `rsi`: `(coin_id, timestamp, session_guid)`. -/
def rsiKey (r : RsiRow) : String × ℤ × Option String :=
  (r.coinId, r.timestampMs, r.sessionGuid)

/-- The row loop of `DatabaseManager._save_rsi_task`: NaN values are
skipped, other rows are inserted until the first conflict aborts. -/
def saveRsiRowsLoop (table : List RsiRow) : List RsiRow → List RsiRow
  | [] => table
  | r :: rs =>
    if r.value = none then saveRsiRowsLoop table rs
    else if table.any (fun x => rsiKey x = rsiKey r) then table
    else saveRsiRowsLoop (table ++ [r]) rs

/-- `DatabaseManager._save_rsi_task`: early-return on an empty series,
otherwise run the row loop. -/
def saveRsiTask (table rows : List RsiRow) : List RsiRow :=
  if rows = [] then table else saveRsiRowsLoop table rows

/-- Modelled from the spec: "All multi-row writes use a single batched
insert per event with insert-or-ignore semantics" — every row whose
primary key is absent is inserted, conflicting rows are skipped and the
remaining rows are still processed.  Only used to compare the spec's
described mechanism against the code's `savePricesTask`. -/
def savePricesBatchInsertOrIgnore (table rows : List PriceRow) : List PriceRow :=
  rows.foldl
    (fun t r => if t.any (fun x => priceKey x = priceKey r) then t else t ++ [r]) table

/-- Rows present in the table stay present through the insertion loop. -/
theorem mem_insertRowsAbortOnConflict {α κ : Type} [DecidableEq κ] (key : α → κ)
    (rs : List α) : ∀ (table : List α) (x : α), x ∈ table →
    x ∈ insertRowsAbortOnConflict key table rs := by
  induction rs with
  | nil => intro table x hx; exact hx
  | cons r rs ih =>
    intro table x hx
    unfold insertRowsAbortOnConflict
    by_cases hc : table.any (fun y => key y = key r)
    · rw [if_pos hc]; exact hx
    · rw [if_neg hc]
      exact ih (table ++ [r]) x (List.mem_append_left _ hx)

/-- Re-running the insertion loop on the same rows is a no-op: the first
row either conflicted already or was inserted by the first run, so the
replay aborts immediately. -/
theorem insertRowsAbortOnConflict_idem {α κ : Type} [DecidableEq κ] (key : α → κ)
    (table rows : List α) :
    insertRowsAbortOnConflict key (insertRowsAbortOnConflict key table rows) rows =
      insertRowsAbortOnConflict key table rows := by
  cases rows with
  | nil => rfl
  | cons r rs =>
    by_cases hc : table.any (fun y => key y = key r)
    · have hinner : insertRowsAbortOnConflict key table (r :: rs) = table := by
        rw [insertRowsAbortOnConflict, if_pos hc]
      rw [hinner, hinner]
    · have hstep : insertRowsAbortOnConflict key table (r :: rs) =
          insertRowsAbortOnConflict key (table ++ [r]) rs := by
        rw [insertRowsAbortOnConflict, if_neg hc]
      have hmem : r ∈ insertRowsAbortOnConflict key (table ++ [r]) rs :=
        mem_insertRowsAbortOnConflict key rs (table ++ [r]) r
          (List.mem_append_right _ (List.mem_singleton_self r))
      rw [hstep, insertRowsAbortOnConflict]
      rw [if_pos ?hany]
      case hany =>
        rw [List.any_eq_true]
        exact ⟨r, hmem, by simp⟩

end CryptoPipeline

namespace CryptoPipeline

/-- Rows present in the table stay present through the RSI row loop. -/
theorem mem_saveRsiRowsLoop (rs : List RsiRow) : ∀ (table : List RsiRow) (x : RsiRow),
    x ∈ table → x ∈ saveRsiRowsLoop table rs := by
  induction rs with
  | nil => intro table x hx; exact hx
  | cons r rs ih =>
    intro table x hx
    unfold saveRsiRowsLoop
    by_cases hnan : r.value = none
    · rw [if_pos hnan]; exact ih table x hx
    · rw [if_neg hnan]
      by_cases hc : table.any (fun y => rsiKey y = rsiKey r)
      · rw [if_pos hc]; exact hx
      · rw [if_neg hc]
        exact ih (table ++ [r]) x (List.mem_append_left _ hx)

/-- Re-running the RSI row loop on the same rows is a no-op: NaN rows are
skipped again and the first inserted row conflicts immediately. -/
theorem saveRsiRowsLoop_idem (rows : List RsiRow) : ∀ table : List RsiRow,
    saveRsiRowsLoop (saveRsiRowsLoop table rows) rows = saveRsiRowsLoop table rows := by
  induction rows with
  | nil => intro table; rfl
  | cons r rs ih =>
    intro table
    by_cases hnan : r.value = none
    · have hskip : ∀ t : List RsiRow, saveRsiRowsLoop t (r :: rs) = saveRsiRowsLoop t rs := by
        intro t
        rw [saveRsiRowsLoop, if_pos hnan]
      rw [hskip, hskip, ih]
    · by_cases hc : table.any (fun y => rsiKey y = rsiKey r)
      · have hinner : saveRsiRowsLoop table (r :: rs) = table := by
          rw [saveRsiRowsLoop, if_neg hnan, if_pos hc]
        rw [hinner, hinner]
      · have hstep : saveRsiRowsLoop table (r :: rs) = saveRsiRowsLoop (table ++ [r]) rs := by
          rw [saveRsiRowsLoop, if_neg hnan, if_neg hc]
        have hmem : r ∈ saveRsiRowsLoop (table ++ [r]) rs :=
          mem_saveRsiRowsLoop rs (table ++ [r]) r
            (List.mem_append_right _ (List.mem_singleton_self r))
        rw [hstep, saveRsiRowsLoop, if_neg hnan]
        rw [if_pos ?hany]
        case hany =>
          rw [List.any_eq_true]
          exact ⟨r, hmem, by simp⟩

/-- Claim C5 (amended): replaying the same `HistoricalPricesFetched` or
`RSICalculated` event twice leaves the tables identical to processing it
once — not because of a batched insert-or-ignore, but because the writes
are per-row plain `INSERT`s and the replay's first (non-NaN) row raises a
primary-key violation that aborts the whole write and is caught. -/
theorem db_replay_idempotent :
    (∀ table rows : List PriceRow,
      savePricesTask (savePricesTask table rows) rows = savePricesTask table rows) ∧
    (∀ table rows : List RsiRow,
      saveRsiTask (saveRsiTask table rows) rows = saveRsiTask table rows) := by
  constructor
  · intro table rows
    cases rows with
    | nil => rfl
    | cons r rs =>
      have hne : r :: rs ≠ ([] : List PriceRow) := by simp
      simp only [savePricesTask, if_neg hne]
      exact insertRowsAbortOnConflict_idem priceKey table (r :: rs)
  · intro table rows
    cases rows with
    | nil => rfl
    | cons r rs =>
      have hne : r :: rs ≠ ([] : List RsiRow) := by simp
      simp only [saveRsiTask, if_neg hne]
      exact saveRsiRowsLoop_idem (r :: rs) table

/-- A sample `prices` row already present in the table. -/
def priceRowExampleA : PriceRow :=
  { coinId := "bitcoin", coinSymbol := "btc", timestampMs := 0, sessionGuid := some "s"
    openPrice := 1, highPrice := 2, lowPrice := 1, closePrice := 2 }

/-- A sample `prices` row not yet present in the table. -/
def priceRowExampleB : PriceRow :=
  { coinId := "ethereum", coinSymbol := "eth", timestampMs := 0, sessionGuid := some "s"
    openPrice := 3, highPrice := 4, lowPrice := 3, closePrice := 4 }

/-- Claim C5 (counterexample): the multi-row write is not a single
batched insert with insert-or-ignore semantics.  On an event whose first
row already exists but whose second row is new, the code inserts nothing
(the first row's primary-key violation aborts the loop), while
insert-or-ignore semantics would insert the new row. -/
theorem save_prices_not_insert_or_ignore :
    savePricesTask [priceRowExampleA] [priceRowExampleA, priceRowExampleB]
        = [priceRowExampleA] ∧
    savePricesBatchInsertOrIgnore [priceRowExampleA] [priceRowExampleA, priceRowExampleB]
        = [priceRowExampleA, priceRowExampleB] ∧
    savePricesTask [priceRowExampleA] [priceRowExampleA, priceRowExampleB] ≠
      savePricesBatchInsertOrIgnore [priceRowExampleA]
        [priceRowExampleA, priceRowExampleB] := by
  have h1 : savePricesTask [priceRowExampleA] [priceRowExampleA, priceRowExampleB]
      = [priceRowExampleA] := by
    simp only [savePricesTask, if_neg (List.cons_ne_nil _ _)]
    rw [insertRowsAbortOnConflict, if_pos (by simp)]
  have h2 : savePricesBatchInsertOrIgnore [priceRowExampleA]
      [priceRowExampleA, priceRowExampleB] = [priceRowExampleA, priceRowExampleB] := by
    simp [savePricesBatchInsertOrIgnore, priceKey, priceRowExampleA, priceRowExampleB]
  refine ⟨h1, h2, ?_⟩
  rw [h1, h2]
  simp

end CryptoPipeline

namespace CryptoPipeline

/-! ## Seed join (`CryptoAnalyzer._handle_top_coins_fetched`,
`CryptoAnalyzer._handle_precision_data_fetched`,
`CryptoAnalyzer._start_analysis_if_ready`)

The orchestrator state relevant to the seed join: the two seed fields
start as `None`, each handler stores its payload and calls
`_start_analysis_if_ready`, which dispatches (publishes the per-timeframe
`FetchHistoricalPricesRequested` batch) exactly when the idempotent
`_initial_data_loaded` flag is clear and both seeds are present and
non-empty.  `dispatchCount` counts executions of the dispatch block. -/

/-- A coin from `TopCoinsFetched`. -/
structure Coin where
  id : String
  symbol : String
  marketCap : ℚ
  deriving DecidableEq, Repr

/-- A market row from `PrecisionDataFetched`. -/
structure Market where
  symbol : String
  baseAsset : String
  quoteAsset : String
  deriving DecidableEq, Repr

/-- Orchestrator seed-join state. -/
structure SeedState where
  coins : Option (List Coin)
  precisionData : Option (List Market)
  initialDataLoaded : Bool
  processingCompleted : Bool
  dispatchCount : ℕ
  deriving DecidableEq, Repr

/-- `CryptoAnalyzer.__init__`: both seeds `None`, flag clear. -/
def initialSeedState : SeedState :=
  { coins := none, precisionData := none, initialDataLoaded := false
    processingCompleted := false, dispatchCount := 0 }

/-- `{m["base_asset"] for m in self.precision_data.values() if m["quote_asset"] == "USDC"}`. -/
def usdcBaseSymbols (ms : List Market) : List String :=
  (ms.filter (fun m => m.quoteAsset = "USDC")).map (fun m => m.baseAsset)

/-- `CryptoAnalyzer._start_analysis_if_ready`. -/
def startAnalysisIfReady (st : SeedState) : SeedState :=
  if st.initialDataLoaded then st
  else
    match st.coins, st.precisionData with
    | some cs, some ps =>
      if cs = [] ∨ ps = [] then { st with processingCompleted := true }
      else
        { st with
          initialDataLoaded := true
          coins := some (cs.filter (fun c => upperStr c.symbol ∈ usdcBaseSymbols ps))
          dispatchCount := st.dispatchCount + 1 }
    | _, _ => st

/-- A seed event delivered to the orchestrator. -/
inductive SeedEvent where
  | top (coins : List Coin)
  | precision (markets : List Market)
  deriving DecidableEq, Repr

/-- The payload carried by a seed event is non-empty. -/
def seedNonEmpty : SeedEvent → Prop
  | .top cs => cs ≠ []
  | .precision ps => ps ≠ []

/-- `_handle_top_coins_fetched` / `_handle_precision_data_fetched`: store
the payload, then `_start_analysis_if_ready`. -/
def handleSeedEvent (st : SeedState) (e : SeedEvent) : SeedState :=
  match e with
  | .top cs => startAnalysisIfReady { st with coins := some cs }
  | .precision ps => startAnalysisIfReady { st with precisionData := some ps }

/-- Process a sequence of seed events from the initial state. -/
def runSeedEvents (evs : List SeedEvent) : SeedState :=
  evs.foldl handleSeedEvent initialSeedState

/-- Exhaustive description of `_start_analysis_if_ready`: it returns the
state unchanged, or marks processing completed on empty seeds, or
dispatches (setting the flag, filtering the coins and bumping the
dispatch count). -/
theorem startAnalysisIfReady_cases (st : SeedState) :
    (startAnalysisIfReady st = st ∧
      (st.initialDataLoaded = true ∨ st.coins = none ∨ st.precisionData = none)) ∨
    (∃ cs ps, st.initialDataLoaded = false ∧ st.coins = some cs ∧
      st.precisionData = some ps ∧ (cs = [] ∨ ps = []) ∧
      startAnalysisIfReady st = { st with processingCompleted := true }) ∨
    (∃ cs ps, st.initialDataLoaded = false ∧ st.coins = some cs ∧
      st.precisionData = some ps ∧ cs ≠ [] ∧ ps ≠ [] ∧
      startAnalysisIfReady st =
        { st with
          initialDataLoaded := true
          coins := some (cs.filter (fun c => upperStr c.symbol ∈ usdcBaseSymbols ps))
          dispatchCount := st.dispatchCount + 1 }) := by
  by_cases hl : st.initialDataLoaded
  · refine Or.inl ⟨?_, Or.inl hl⟩
    unfold startAnalysisIfReady
    rw [if_pos hl]
  · rcases hc : st.coins with _ | cs
    · refine Or.inl ⟨?_, Or.inr (Or.inl rfl)⟩
      unfold startAnalysisIfReady
      rw [if_neg hl, hc]
    · rcases hp : st.precisionData with _ | ps
      · refine Or.inl ⟨?_, Or.inr (Or.inr rfl)⟩
        unfold startAnalysisIfReady
        rw [if_neg hl, hc, hp]
      · by_cases he : cs = [] ∨ ps = []
        · right; left
          refine ⟨cs, ps, by simpa using hl, rfl, rfl, he, ?_⟩
          unfold startAnalysisIfReady
          rw [if_neg hl, hc, hp]
          simp [he]
        · right; right
          push_neg at he
          refine ⟨cs, ps, by simpa using hl, rfl, rfl, he.1, he.2, ?_⟩
          unfold startAnalysisIfReady
          rw [if_neg hl, hc, hp]
          simp [he.1, he.2]

end CryptoPipeline

namespace CryptoPipeline

/-- Handling `TopCoinsFetched` always leaves the coins field set. -/
theorem handle_top_coins_ne_none (st : SeedState) (cs : List Coin) :
    (handleSeedEvent st (SeedEvent.top cs)).coins ≠ none := by
  simp only [handleSeedEvent]
  rcases startAnalysisIfReady_cases { st with coins := some cs } with
    ⟨heq, -⟩ | ⟨c1, p1, -, -, -, -, heq⟩ | ⟨c1, p1, -, -, -, -, -, heq⟩ <;>
    rw [heq] <;> simp

/-- Handling `PrecisionDataFetched` always leaves the precision field set. -/
theorem handle_precision_ne_none (st : SeedState) (ps : List Market) :
    (handleSeedEvent st (SeedEvent.precision ps)).precisionData ≠ none := by
  simp only [handleSeedEvent]
  rcases startAnalysisIfReady_cases { st with precisionData := some ps } with
    ⟨heq, -⟩ | ⟨c1, p1, -, -, -, -, heq⟩ | ⟨c1, p1, -, -, -, -, -, heq⟩ <;>
    rw [heq] <;> simp

/-- A set coins field stays set across any seed event. -/
theorem handle_coins_ne_none (st : SeedState) (e : SeedEvent) (h : st.coins ≠ none) :
    (handleSeedEvent st e).coins ≠ none := by
  cases e with
  | top cs => exact handle_top_coins_ne_none st cs
  | precision ps =>
    simp only [handleSeedEvent]
    rcases startAnalysisIfReady_cases { st with precisionData := some ps } with
      ⟨heq, -⟩ | ⟨c1, p1, -, -, -, -, heq⟩ | ⟨c1, p1, -, -, -, -, -, heq⟩ <;> rw [heq]
    · simpa using h
    · simpa using h
    · simp

/-- A set precision field stays set across any seed event. -/
theorem handle_precision_ne_none_mono (st : SeedState) (e : SeedEvent)
    (h : st.precisionData ≠ none) : (handleSeedEvent st e).precisionData ≠ none := by
  cases e with
  | precision ps => exact handle_precision_ne_none st ps
  | top cs =>
    simp only [handleSeedEvent]
    rcases startAnalysisIfReady_cases { st with coins := some cs } with
      ⟨heq, -⟩ | ⟨c1, p1, -, -, -, -, heq⟩ | ⟨c1, p1, -, -, hp, -, -, heq⟩ <;> rw [heq]
    · simpa using h
    · simpa using h
    · simpa using h

/-- Without a `TopCoinsFetched` event the coins field stays `None`. -/
theorem handle_coins_none (st : SeedState) (ps : List Market) (h : st.coins = none) :
    (handleSeedEvent st (SeedEvent.precision ps)).coins = none := by
  simp only [handleSeedEvent]
  rcases startAnalysisIfReady_cases { st with precisionData := some ps } with
    ⟨heq, -⟩ | ⟨c1, p1, -, hc, -, -, heq⟩ | ⟨c1, p1, -, hc, -, -, -, heq⟩
  · rw [heq]; simpa using h
  · exfalso
    have : st.coins = some c1 := by simpa using hc
    rw [h] at this
    exact Option.noConfusion this
  · exfalso
    have : st.coins = some c1 := by simpa using hc
    rw [h] at this
    exact Option.noConfusion this

/-- Without a `PrecisionDataFetched` event the precision field stays `None`. -/
theorem handle_precision_none (st : SeedState) (cs : List Coin)
    (h : st.precisionData = none) :
    (handleSeedEvent st (SeedEvent.top cs)).precisionData = none := by
  simp only [handleSeedEvent]
  rcases startAnalysisIfReady_cases { st with coins := some cs } with
    ⟨heq, -⟩ | ⟨c1, p1, -, -, hp, -, heq⟩ | ⟨c1, p1, -, -, hp, -, -, heq⟩
  · rw [heq]; simpa using h
  · exfalso
    have : st.precisionData = some p1 := by simpa using hp
    rw [h] at this
    exact Option.noConfusion this
  · exfalso
    have : st.precisionData = some p1 := by simpa using hp
    rw [h] at this
    exact Option.noConfusion this

/-- Invariant: the dispatch count mirrors the idempotent loaded flag, and
once loaded both seed fields are present. -/
def SeedInv (st : SeedState) : Prop :=
  st.dispatchCount = (if st.initialDataLoaded then 1 else 0) ∧
  (st.initialDataLoaded = true → st.coins ≠ none ∧ st.precisionData ≠ none)

/-- `SeedInv` is preserved by every seed event. -/
theorem seedInv_step (st : SeedState) (e : SeedEvent) (h : SeedInv st) :
    SeedInv (handleSeedEvent st e) := by
  obtain ⟨h1, h2⟩ := h
  cases e with
  | top cs =>
    simp only [handleSeedEvent]
    rcases startAnalysisIfReady_cases { st with coins := some cs } with
      ⟨heq, -⟩ | ⟨c1, p1, -, -, -, -, heq⟩ | ⟨c1, p1, hload, -, hp, -, -, heq⟩ <;> rw [heq]
    · refine ⟨by simpa using h1, fun hld => ?_⟩
      have hld2 : st.initialDataLoaded = true := by simpa using hld
      exact ⟨by simp, by simpa using (h2 hld2).2⟩
    · refine ⟨by simpa using h1, fun hld => ?_⟩
      have hld2 : st.initialDataLoaded = true := by simpa using hld
      exact ⟨by simp, by simpa using (h2 hld2).2⟩
    · have hld0 : st.initialDataLoaded = false := by simpa using hload
      constructor
      · simp only [SeedState.mk.injEq]
        simp [h1, hld0]
      · intro _
        refine ⟨by simp, ?_⟩
        have : st.precisionData = some p1 := by simpa using hp
        simp [this]
  | precision ps =>
    simp only [handleSeedEvent]
    rcases startAnalysisIfReady_cases { st with precisionData := some ps } with
      ⟨heq, -⟩ | ⟨c1, p1, -, -, -, -, heq⟩ | ⟨c1, p1, hload, hc, -, -, -, heq⟩ <;> rw [heq]
    · refine ⟨by simpa using h1, fun hld => ?_⟩
      have hld2 : st.initialDataLoaded = true := by simpa using hld
      exact ⟨by simpa using (h2 hld2).1, by simp⟩
    · refine ⟨by simpa using h1, fun hld => ?_⟩
      have hld2 : st.initialDataLoaded = true := by simpa using hld
      exact ⟨by simpa using (h2 hld2).1, by simp⟩
    · have hld0 : st.initialDataLoaded = false := by simpa using hload
      constructor
      · simp [h1, hld0]
      · intro _
        exact ⟨by simp, by simp⟩

end CryptoPipeline

namespace CryptoPipeline

/-- Invariant for non-empty seed traffic: either dispatch already
happened (flag set), or at most one seed field is set and any set field
is non-empty. -/
def SeedReady (st : SeedState) : Prop :=
  st.initialDataLoaded = true ∨
  (st.initialDataLoaded = false ∧ (st.coins = none ∨ st.precisionData = none) ∧
    (∀ cs, st.coins = some cs → cs ≠ []) ∧
    (∀ ps, st.precisionData = some ps → ps ≠ []))

/-- `SeedReady` is preserved by seed events with non-empty payloads. -/
theorem seedReady_step (st : SeedState) (e : SeedEvent) (hne : seedNonEmpty e)
    (h : SeedReady st) : SeedReady (handleSeedEvent st e) := by
  cases e with
  | top cs =>
    have hnecs : cs ≠ [] := hne
    simp only [handleSeedEvent]
    rcases startAnalysisIfReady_cases { st with coins := some cs } with
      ⟨heq, hreason⟩ | ⟨c1, p1, hload, hc, hp, hemp, heq⟩ |
      ⟨c1, p1, hload, hc, hp, hne1, hne2, heq⟩ <;> rw [heq]
    · rcases hreason with hld | hcn | hpn
      · left
        simpa using hld
      · exact absurd hcn (by simp)
      · by_cases hld0 : st.initialDataLoaded = true
        · left
          simpa using hld0
        · right
          have hld1 : st.initialDataLoaded = false := by simpa using hld0
          refine ⟨by simpa using hld1, Or.inr (by simpa using hpn), ?_, ?_⟩
          · intro cs0 hcs0
            have hq : cs = cs0 := by simpa using hcs0
            rw [← hq]
            exact hnecs
          · intro ps0 hps0
            have hpn2 : st.precisionData = none := by simpa using hpn
            have : st.precisionData = some ps0 := by simpa using hps0
            rw [hpn2] at this
            exact Option.noConfusion this
    · exfalso
      have hc2 : cs = c1 := by simpa using hc
      have hp2 : st.precisionData = some p1 := by simpa using hp
      have hld0 : st.initialDataLoaded = false := by simpa using hload
      rcases h with hld | ⟨-, -, -, hps⟩
      · rw [hld] at hld0
        exact Bool.noConfusion hld0
      · rcases hemp with h1 | h1
        · rw [← hc2] at h1
          exact hnecs h1
        · exact hps p1 hp2 h1
    · left
      simp
  | precision ps =>
    have hneps : ps ≠ [] := hne
    simp only [handleSeedEvent]
    rcases startAnalysisIfReady_cases { st with precisionData := some ps } with
      ⟨heq, hreason⟩ | ⟨c1, p1, hload, hc, hp, hemp, heq⟩ |
      ⟨c1, p1, hload, hc, hp, hne1, hne2, heq⟩ <;> rw [heq]
    · rcases hreason with hld | hcn | hpn
      · left
        simpa using hld
      · by_cases hld0 : st.initialDataLoaded = true
        · left
          simpa using hld0
        · right
          have hld1 : st.initialDataLoaded = false := by simpa using hld0
          refine ⟨by simpa using hld1, Or.inl (by simpa using hcn), ?_, ?_⟩
          · intro cs0 hcs0
            have hcn2 : st.coins = none := by simpa using hcn
            have : st.coins = some cs0 := by simpa using hcs0
            rw [hcn2] at this
            exact Option.noConfusion this
          · intro ps0 hps0
            have hq : ps = ps0 := by simpa using hps0
            rw [← hq]
            exact hneps
      · exact absurd hpn (by simp)
    · exfalso
      have hp2 : ps = p1 := by simpa using hp
      have hc2 : st.coins = some c1 := by simpa using hc
      have hld0 : st.initialDataLoaded = false := by simpa using hload
      rcases h with hld | ⟨-, -, hcs, -⟩
      · rw [hld] at hld0
        exact Bool.noConfusion hld0
      · rcases hemp with h1 | h1
        · exact hcs c1 hc2 h1
        · rw [← hp2] at h1
          exact hneps h1
    · left
      simp

end CryptoPipeline

namespace CryptoPipeline

/-- `SeedInv` holds along any event sequence. -/
theorem seedInv_fold (evs : List SeedEvent) : ∀ st, SeedInv st →
    SeedInv (evs.foldl handleSeedEvent st) := by
  induction evs with
  | nil => intro st h; exact h
  | cons e evs ih => intro st h; exact ih _ (seedInv_step st e h)

/-- `SeedReady` holds along any sequence of non-empty seed events. -/
theorem seedReady_fold (evs : List SeedEvent) : ∀ st, (∀ e ∈ evs, seedNonEmpty e) →
    SeedReady st → SeedReady (evs.foldl handleSeedEvent st) := by
  induction evs with
  | nil => intro st _ h; exact h
  | cons e evs ih =>
    intro st hne h
    exact ih _ (fun e2 he2 => hne e2 (List.mem_cons_of_mem _ he2))
      (seedReady_step st e (hne e (List.mem_cons_self _ _)) h)

/-- A set coins field stays set along any event sequence. -/
theorem coins_ne_none_fold (evs : List SeedEvent) : ∀ st, st.coins ≠ none →
    (evs.foldl handleSeedEvent st).coins ≠ none := by
  induction evs with
  | nil => intro st h; exact h
  | cons e evs ih => intro st h; exact ih _ (handle_coins_ne_none st e h)

/-- A set precision field stays set along any event sequence. -/
theorem precision_ne_none_fold (evs : List SeedEvent) : ∀ st, st.precisionData ≠ none →
    (evs.foldl handleSeedEvent st).precisionData ≠ none := by
  induction evs with
  | nil => intro st h; exact h
  | cons e evs ih => intro st h; exact ih _ (handle_precision_ne_none_mono st e h)

/-- If a `TopCoinsFetched` event occurs, the final coins field is set. -/
theorem coins_ne_none_of_top (evs : List SeedEvent) : ∀ st,
    (∃ cs, SeedEvent.top cs ∈ evs) → (evs.foldl handleSeedEvent st).coins ≠ none := by
  induction evs with
  | nil => rintro st ⟨cs, hcs⟩; exact absurd hcs (List.not_mem_nil _)
  | cons e evs ih =>
    rintro st ⟨cs, hcs⟩
    rcases List.mem_cons.mp hcs with heq | hmem
    · rw [← heq]
      exact coins_ne_none_fold evs _ (handle_top_coins_ne_none st cs)
    · exact ih _ ⟨cs, hmem⟩

/-- If a `PrecisionDataFetched` event occurs, the final precision field is
set. -/
theorem precision_ne_none_of_prec (evs : List SeedEvent) : ∀ st,
    (∃ ps, SeedEvent.precision ps ∈ evs) →
    (evs.foldl handleSeedEvent st).precisionData ≠ none := by
  induction evs with
  | nil => rintro st ⟨ps, hps⟩; exact absurd hps (List.not_mem_nil _)
  | cons e evs ih =>
    rintro st ⟨ps, hps⟩
    rcases List.mem_cons.mp hps with heq | hmem
    · rw [← heq]
      exact precision_ne_none_fold evs _ (handle_precision_ne_none st ps)
    · exact ih _ ⟨ps, hmem⟩

/-- Without any `TopCoinsFetched` event the coins field stays `None`. -/
theorem coins_none_fold (evs : List SeedEvent) : ∀ st, st.coins = none →
    (∀ cs, SeedEvent.top cs ∉ evs) → (evs.foldl handleSeedEvent st).coins = none := by
  induction evs with
  | nil => intro st h _; exact h
  | cons e evs ih =>
    intro st h hno
    cases e with
    | top cs => exact absurd (List.mem_cons_self _ _) (hno cs)
    | precision ps =>
      exact ih _ (handle_coins_none st ps h)
        (fun cs hcs => hno cs (List.mem_cons_of_mem _ hcs))

/-- Without any `PrecisionDataFetched` event the precision field stays
`None`. -/
theorem precision_none_fold (evs : List SeedEvent) : ∀ st, st.precisionData = none →
    (∀ ps, SeedEvent.precision ps ∉ evs) →
    (evs.foldl handleSeedEvent st).precisionData = none := by
  induction evs with
  | nil => intro st h _; exact h
  | cons e evs ih =>
    intro st h hno
    cases e with
    | precision ps => exact absurd (List.mem_cons_self _ _) (hno ps)
    | top cs =>
      exact ih _ (handle_precision_none st cs h)
        (fun ps hps => hno ps (List.mem_cons_of_mem _ hps))

/-- Claim C8: dispatch of `FetchHistoricalPricesRequested` runs at most
once per session; if it ran, both seeds had been received; and on any
delivery of non-empty seeds of both kinds — in either order — it runs
exactly once, further seed events never re-triggering it. -/
theorem seed_join_dispatch_exactly_once (evs : List SeedEvent) :
    (runSeedEvents evs).dispatchCount ≤ 1 ∧
    ((runSeedEvents evs).dispatchCount = 1 →
      (∃ cs, SeedEvent.top cs ∈ evs) ∧ (∃ ps, SeedEvent.precision ps ∈ evs)) ∧
    ((∀ e ∈ evs, seedNonEmpty e) → (∃ cs, SeedEvent.top cs ∈ evs) →
      (∃ ps, SeedEvent.precision ps ∈ evs) →
      (runSeedEvents evs).dispatchCount = 1) := by
  have hinv : SeedInv (runSeedEvents evs) := by
    refine seedInv_fold evs initialSeedState ⟨rfl, fun h => ?_⟩
    exact absurd h (by simp [initialSeedState])
  obtain ⟨hcount, hfields⟩ := hinv
  refine ⟨?_, ?_, ?_⟩
  · rw [hcount]
    by_cases hl : (runSeedEvents evs).initialDataLoaded <;> simp [hl]
  · intro h1
    have hl : (runSeedEvents evs).initialDataLoaded = true := by
      by_contra hl0
      rw [hcount, if_neg hl0] at h1
      exact absurd h1 (by omega)
    obtain ⟨hcne, hpne⟩ := hfields hl
    constructor
    · by_contra hno
      push_neg at hno
      exact hcne (coins_none_fold evs initialSeedState rfl hno)
    · by_contra hno
      push_neg at hno
      exact hpne (precision_none_fold evs initialSeedState rfl hno)
  · intro hne htop hprec
    have hready : SeedReady (runSeedEvents evs) := by
      refine seedReady_fold evs initialSeedState hne (Or.inr ⟨rfl, Or.inl rfl, ?_, ?_⟩)
      · intro cs hcs
        exact absurd hcs (by simp [initialSeedState])
      · intro ps hps
        exact absurd hps (by simp [initialSeedState])
    rcases hready with hl | ⟨-, hnone, -, -⟩
    · rw [hcount, if_pos hl]
    · exfalso
      rcases hnone with h1 | h1
      · exact coins_ne_none_of_top evs initialSeedState htop h1
      · exact precision_ne_none_of_prec evs initialSeedState hprec h1

/-- Witness for `seed_join_dispatch_exactly_once` on a concrete two-event
trace: the top-coins seed then the precision seed, both non-empty. -/
theorem seed_join_dispatch_witness :
    (runSeedEvents [SeedEvent.top [⟨"bitcoin", "BTC", 100⟩],
        SeedEvent.precision [⟨"BTC/USDC", "BTC", "USDC"⟩]]).dispatchCount = 1 :=
  (seed_join_dispatch_exactly_once _).2.2
    (by
      intro e he
      rcases List.mem_cons.mp he with rfl | he2
      · simp [seedNonEmpty]
      · rcases List.mem_cons.mp he2 with rfl | he3
        · simp [seedNonEmpty]
        · exact absurd he3 (List.not_mem_nil _))
    ⟨_, List.mem_cons_self _ _⟩
    ⟨_, List.mem_cons_of_mem _ (List.mem_cons_self _ _)⟩

end CryptoPipeline

namespace CryptoPipeline

/-! ## Analysis job (`analysis_job.py`)

Per-timeframe completion state machine.  Fingerprints tracked by the
idempotency tracker are `{"timeframe": ..., "coin_id_symbol": ...,
"event_type": "decrement"}`; within a single job the timeframe and event
type are constant, so a fingerprint is identified with its coin pair. -/

/-- A `(coin_id, symbol)` pair. -/
abbrev CoinPair := String × String

/-- Modelled from the spec: the `IdempotencyTracker` class imported from
the external `python_pubsub_client` package (its source is not part of
this repository).  The spec describes it as a "bounded LRU (capacity
~1000)" fingerprint set: `seen` holds fingerprints newest first, and
marking a new fingerprint evicts the oldest beyond `maxlen`. -/
structure IdempotencyTracker where
  maxlen : ℕ
  seen : List CoinPair
  deriving DecidableEq, Repr

/-- `IdempotencyTracker.is_duplicate`: membership in the fingerprint set. -/
def IdempotencyTracker.isDuplicate (t : IdempotencyTracker) (p : CoinPair) : Bool :=
  decide (p ∈ t.seen)

/-- `IdempotencyTracker.mark_processed`: record a fingerprint, evicting
the oldest beyond capacity. -/
def IdempotencyTracker.markProcessed (t : IdempotencyTracker) (p : CoinPair) :
    IdempotencyTracker :=
  { t with seen := (p :: t.seen).take t.maxlen }

/-- An event published by the job machinery: `AnalysisJobCompleted`, or a
`CorrelationAnalyzed` for one coin of the correlation pass. -/
inductive JobOutEvent where
  | completed (timeframe : String)
  | corr (pair : CoinPair)
  deriving DecidableEq, Repr

/-- State of an `AnalysisJob`.  `decremented` is a ghost history field
recording, in order, the pairs whose events effectively decremented the
counter; it has no counterpart in the Python code and influences
nothing. -/
structure AnalysisJobState where
  timeframe : String
  btcRsiPresent : Bool
  coinsToProcess : List CoinPair
  processingCounter : ℤ
  tracker : IdempotencyTracker
  decremented : List CoinPair
  deriving DecidableEq, Repr

/-- `AnalysisJob.__init__`: counter 0, tracker `maxlen=1000`;
`btcRsiPresent` records whether `self.btc_rsi` has been set by the time
the events below are processed. -/
def AnalysisJobState.init (tf : String) (btcPresent : Bool) : AnalysisJobState :=
  { timeframe := tf, btcRsiPresent := btcPresent, coinsToProcess := []
    processingCounter := 0, tracker := { maxlen := 1000, seen := [] }
    decremented := [] }

/-- `AnalysisJob.set_coins_to_process`: coins whose lower-cased symbol is
`"btc"` are excluded and the counter becomes `len(coins_to_process) + 1`. -/
def setCoinsToProcess (job : AnalysisJobState) (coins : List CoinPair) :
    AnalysisJobState :=
  let cs := coins.filter (fun c => lowerStr c.2 ≠ "btc")
  { job with coinsToProcess := cs, processingCounter := (cs.length : ℤ) + 1 }

/-- `AnalysisJob.start_correlation_analysis` with a service bus attached:
if `btc_rsi` is missing, publish `AnalysisJobCompleted` alone (degraded
completion) — otherwise run the correlation loop and then publish
`AnalysisJobCompleted`.  `corrPairs` lists the coins whose pass emits a
`CorrelationAnalyzed` (coins whose per-coin analysis raises are caught
and skipped, hence absent); `outerRaiseAt = some k` models the outer
`try` raising after `k` emissions, upon which the `except` branch still
publishes `AnalysisJobCompleted`. -/
def startCorrelationAnalysis (job : AnalysisJobState) (corrPairs : List CoinPair)
    (outerRaiseAt : Option ℕ) : List JobOutEvent :=
  if job.btcRsiPresent = false then [JobOutEvent.completed job.timeframe]
  else
    match outerRaiseAt with
    | some k =>
      (corrPairs.take k).map JobOutEvent.corr ++ [JobOutEvent.completed job.timeframe]
    | none => corrPairs.map JobOutEvent.corr ++ [JobOutEvent.completed job.timeframe]

/-- `AnalysisJob.decrement_counter`: skip duplicate fingerprints; mark
and decrement otherwise; when the counter reaches `<= 0`, run
`start_correlation_analysis`. -/
def decrementCounter (corrPairs : List CoinPair) (outerRaiseAt : Option ℕ)
    (job : AnalysisJobState) (p : CoinPair) : AnalysisJobState × List JobOutEvent :=
  if job.tracker.isDuplicate p then (job, [])
  else
    let job2 :=
      { job with
        tracker := job.tracker.markProcessed p
        processingCounter := job.processingCounter - 1
        decremented := job.decremented ++ [p] }
    if job2.processingCounter ≤ 0 then
      (job2, startCorrelationAnalysis job2 corrPairs outerRaiseAt)
    else (job2, [])

/-- Deliver a sequence of decrement events (`RSICalculated` or
`CoinProcessingFailed` outcomes routed by the orchestrator) to the job,
collecting everything it publishes. -/
def runDecrements (corrPairs : List CoinPair) (outerRaiseAt : Option ℕ)
    (job : AnalysisJobState) : List CoinPair → AnalysisJobState × List JobOutEvent
  | [] => (job, [])
  | p :: ps =>
    let r1 := decrementCounter corrPairs outerRaiseAt job p
    let r2 := runDecrements corrPairs outerRaiseAt r1.1 ps
    (r2.1, r1.2 ++ r2.2)

/-- Number of `AnalysisJobCompleted` events in an output list. -/
def completedCount (outs : List JobOutEvent) : ℕ :=
  outs.countP (fun e => match e with | JobOutEvent.completed _ => true | _ => false)

end CryptoPipeline

namespace CryptoPipeline

/-- A duplicate-free list contained in another list is no longer than it. -/
theorem nodup_subset_length_le {l A : List CoinPair} (hnd : l.Nodup) (hsub : l ⊆ A) :
    l.length ≤ A.length :=
  (hnd.subperm hsub).length_le

/-- `completedCount` distributes over append. -/
theorem completedCount_append (a b : List JobOutEvent) :
    completedCount (a ++ b) = completedCount a + completedCount b :=
  List.countP_append _ _ _

/-- Correlation events contribute nothing to `completedCount`. -/
theorem completedCount_corrMap (ps : List CoinPair) :
    completedCount (ps.map JobOutEvent.corr) = 0 := by
  rw [completedCount, List.countP_eq_zero]
  intro e he
  rcases List.mem_map.mp he with ⟨q, -, rfl⟩
  simp

/-- Each call of `start_correlation_analysis` publishes
`AnalysisJobCompleted` exactly once: on missing BTC RSI, after the loop,
and in the `except` branch alike. -/
theorem completedCount_start (job : AnalysisJobState) (corrPairs : List CoinPair)
    (k : Option ℕ) : completedCount (startCorrelationAnalysis job corrPairs k) = 1 := by
  unfold startCorrelationAnalysis
  by_cases hb : job.btcRsiPresent = false
  · rw [if_pos hb]
    simp [completedCount]
  · rw [if_neg hb]
    cases k with
    | none =>
      rw [completedCount_append, completedCount_corrMap]
      simp [completedCount]
    | some k0 =>
      rw [completedCount_append, completedCount_corrMap]
      simp [completedCount]

/-- A duplicate decrement is a no-op. -/
theorem decrementCounter_dup (corrPairs : List CoinPair) (k : Option ℕ)
    (job : AnalysisJobState) (p : CoinPair) (h : p ∈ job.tracker.seen) :
    decrementCounter corrPairs k job p = (job, []) := by
  unfold decrementCounter IdempotencyTracker.isDuplicate
  rw [if_pos (by simpa using h)]

/-- A fresh decrement below capacity: mark the fingerprint (without
eviction), decrement, and publish the correlation-pass output when the
counter reaches `<= 0`. -/
theorem decrementCounter_new (corrPairs : List CoinPair) (k : Option ℕ)
    (job : AnalysisJobState) (p : CoinPair) (h : p ∉ job.tracker.seen)
    (hlen : job.tracker.seen.length + 1 ≤ job.tracker.maxlen) :
    decrementCounter corrPairs k job p =
      ({ job with
          tracker := { maxlen := job.tracker.maxlen, seen := p :: job.tracker.seen }
          processingCounter := job.processingCounter - 1
          decremented := job.decremented ++ [p] },
        if job.processingCounter - 1 ≤ 0 then
          startCorrelationAnalysis
            { job with
              tracker := { maxlen := job.tracker.maxlen, seen := p :: job.tracker.seen }
              processingCounter := job.processingCounter - 1
              decremented := job.decremented ++ [p] } corrPairs k
        else []) := by
  unfold decrementCounter IdempotencyTracker.isDuplicate IdempotencyTracker.markProcessed
  rw [if_neg (by simpa using h)]
  have htake : (p :: job.tracker.seen).take job.tracker.maxlen = p :: job.tracker.seen :=
    List.take_of_length_le (by simpa using hlen)
  simp only [htake]
  split <;> rfl

end CryptoPipeline

namespace CryptoPipeline

/-- Tracker dynamics: while the delivered pairs come from a universe `A`
no larger than the tracker capacity, no eviction happens, the fingerprint
set stays duplicate-free inside `A` and grows monotonically, every
processed event ends up in it, and the ghost `decremented` history is its
reverse. -/
theorem runDecrements_tracker (A corrPairs : List CoinPair) (k : Option ℕ) :
    ∀ (evs : List CoinPair) (job : AnalysisJobState),
    (∀ e ∈ evs, e ∈ A) →
    (∀ s ∈ job.tracker.seen, s ∈ A) →
    job.tracker.seen.Nodup →
    A.length ≤ job.tracker.maxlen →
    job.tracker.seen = job.decremented.reverse →
    ((runDecrements corrPairs k job evs).1.tracker.seen.Nodup ∧
     (∀ s ∈ (runDecrements corrPairs k job evs).1.tracker.seen, s ∈ A) ∧
     (runDecrements corrPairs k job evs).1.tracker.maxlen = job.tracker.maxlen ∧
     (runDecrements corrPairs k job evs).1.tracker.seen =
       (runDecrements corrPairs k job evs).1.decremented.reverse ∧
     (∀ s ∈ job.tracker.seen, s ∈ (runDecrements corrPairs k job evs).1.tracker.seen) ∧
     (∀ e ∈ evs, e ∈ (runDecrements corrPairs k job evs).1.tracker.seen)) := by
  intro evs
  induction evs with
  | nil =>
    intro job h1 h2 h3 h4 h5
    exact ⟨h3, h2, rfl, h5, fun s hs => hs, by simp⟩
  | cons p ps ih =>
    intro job hevs hsub hnd hcap hghost
    by_cases hdup : p ∈ job.tracker.seen
    · have hstep := decrementCounter_dup corrPairs k job p hdup
      simp only [runDecrements, hstep]
      obtain ⟨c1, c2, c3, c4, c5, c6⟩ :=
        ih job (fun e he => hevs e (List.mem_cons_of_mem _ he)) hsub hnd hcap hghost
      refine ⟨c1, c2, c3, c4, c5, ?_⟩
      intro e he
      rcases List.mem_cons.mp he with rfl | he2
      · exact c5 e hdup
      · exact c6 e he2
    · have hpA : p ∈ A := hevs p (List.mem_cons_self _ _)
      have hnd2 : (p :: job.tracker.seen).Nodup := List.nodup_cons.mpr ⟨hdup, hnd⟩
      have hsub2 : ∀ s ∈ p :: job.tracker.seen, s ∈ A := by
        intro s hs
        rcases List.mem_cons.mp hs with rfl | hs2
        · exact hpA
        · exact hsub s hs2
      have hlen : job.tracker.seen.length + 1 ≤ job.tracker.maxlen := by
        have hle := nodup_subset_length_le hnd2 hsub2
        simp only [List.length_cons] at hle
        omega
      have hstep := decrementCounter_new corrPairs k job p hdup hlen
      simp only [runDecrements, hstep]
      obtain ⟨c1, c2, c3, c4, c5, c6⟩ :=
        ih { job with
              tracker := { maxlen := job.tracker.maxlen, seen := p :: job.tracker.seen }
              processingCounter := job.processingCounter - 1
              decremented := job.decremented ++ [p] }
          (fun e he => hevs e (List.mem_cons_of_mem _ he)) hsub2 hnd2 hcap
          (by simp [hghost])
      refine ⟨c1, c2, c3, c4, ?_, ?_⟩
      · intro s hs
        exact c5 s (List.mem_cons_of_mem _ hs)
      · intro e he
        rcases List.mem_cons.mp he with rfl | he2
        · exact c5 e (List.mem_cons_self _ _)
        · exact c6 e he2

end CryptoPipeline

namespace CryptoPipeline

/-- Full job dynamics: on top of the tracker facts, the counter always
equals `|A|` minus the number of fingerprints seen, and the number of
`AnalysisJobCompleted` publishes in a run is 1 exactly when the run
crosses the quorum (all of `A` seen) and 0 otherwise. -/
theorem runDecrements_full (A corrPairs : List CoinPair) (k : Option ℕ) :
    ∀ (evs : List CoinPair) (job : AnalysisJobState),
    (∀ e ∈ evs, e ∈ A) →
    (∀ s ∈ job.tracker.seen, s ∈ A) →
    job.tracker.seen.Nodup →
    A.length ≤ job.tracker.maxlen →
    job.processingCounter = (A.length : ℤ) - job.tracker.seen.length →
    ((runDecrements corrPairs k job evs).1.tracker.seen.Nodup ∧
     (∀ s ∈ (runDecrements corrPairs k job evs).1.tracker.seen, s ∈ A) ∧
     (∀ s ∈ job.tracker.seen, s ∈ (runDecrements corrPairs k job evs).1.tracker.seen) ∧
     (∀ e ∈ evs, e ∈ (runDecrements corrPairs k job evs).1.tracker.seen) ∧
     completedCount (runDecrements corrPairs k job evs).2 =
       (if (runDecrements corrPairs k job evs).1.tracker.seen.length = A.length ∧
           job.tracker.seen.length ≠ A.length then 1 else 0)) := by
  intro evs
  induction evs with
  | nil =>
    intro job h1 h2 h3 h4 h5
    refine ⟨h3, h2, fun s hs => hs, by simp, ?_⟩
    rw [if_neg]
    · rfl
    · rintro ⟨hx, hy⟩
      exact hy hx
  | cons p ps ih =>
    intro job hevs hsub hnd hcap hcounter
    by_cases hdup : p ∈ job.tracker.seen
    · have hstep := decrementCounter_dup corrPairs k job p hdup
      simp only [runDecrements, hstep]
      obtain ⟨c1, c2, c3, c4, c5⟩ :=
        ih job (fun e he => hevs e (List.mem_cons_of_mem _ he)) hsub hnd hcap hcounter
      refine ⟨c1, c2, c3, ?_, ?_⟩
      · intro e he
        rcases List.mem_cons.mp he with rfl | he2
        · exact c3 e hdup
        · exact c4 e he2
      · simpa using c5
    · have hpA : p ∈ A := hevs p (List.mem_cons_self _ _)
      have hnd2 : (p :: job.tracker.seen).Nodup := List.nodup_cons.mpr ⟨hdup, hnd⟩
      have hsub2 : ∀ s ∈ p :: job.tracker.seen, s ∈ A := by
        intro s hs
        rcases List.mem_cons.mp hs with rfl | hs2
        · exact hpA
        · exact hsub s hs2
      have hlenA : (p :: job.tracker.seen).length ≤ A.length :=
        nodup_subset_length_le hnd2 hsub2
      have hlen : job.tracker.seen.length + 1 ≤ job.tracker.maxlen := by
        simp only [List.length_cons] at hlenA
        omega
      have hstep := decrementCounter_new corrPairs k job p hdup hlen
      simp only [runDecrements, hstep]
      have hcounter2 :
          ({ job with
              tracker := { maxlen := job.tracker.maxlen, seen := p :: job.tracker.seen }
              processingCounter := job.processingCounter - 1
              decremented := job.decremented ++ [p] } :
            AnalysisJobState).processingCounter =
          (A.length : ℤ) -
            ({ job with
                tracker := { maxlen := job.tracker.maxlen, seen := p :: job.tracker.seen }
                processingCounter := job.processingCounter - 1
                decremented := job.decremented ++ [p] } :
              AnalysisJobState).tracker.seen.length := by
        simp only [List.length_cons]
        rw [hcounter]
        push_cast
        ring
      obtain ⟨c1, c2, c3, c4, c5⟩ :=
        ih { job with
              tracker := { maxlen := job.tracker.maxlen, seen := p :: job.tracker.seen }
              processingCounter := job.processingCounter - 1
              decremented := job.decremented ++ [p] }
          (fun e he => hevs e (List.mem_cons_of_mem _ he)) hsub2 hnd2 hcap hcounter2
      refine ⟨c1, c2, ?_, ?_, ?_⟩
      · intro s hs
        exact c3 s (List.mem_cons_of_mem _ hs)
      · intro e he
        rcases List.mem_cons.mp he with rfl | he2
        · exact c3 e (List.mem_cons_self _ _)
        · exact c4 e he2
      · rw [completedCount_append]
        by_cases hpub : job.processingCounter - 1 ≤ 0
        · have hfull : job.tracker.seen.length + 1 = A.length := by
            rw [hcounter] at hpub
            simp only [List.length_cons] at hlenA
            omega
          rw [if_pos hpub, completedCount_start]
          have hc5 : completedCount
              (runDecrements corrPairs k
                { job with
                  tracker := { maxlen := job.tracker.maxlen, seen := p :: job.tracker.seen }
                  processingCounter := job.processingCounter - 1
                  decremented := job.decremented ++ [p] } ps).2 = 0 := by
            rw [c5, if_neg]
            rintro ⟨-, hy⟩
            exact hy (by simpa using hfull)
          rw [hc5]
          rw [if_pos]
          constructor
          · have hup : (p :: job.tracker.seen).length ≤
                (runDecrements corrPairs k
                  { job with
                    tracker := { maxlen := job.tracker.maxlen, seen := p :: job.tracker.seen }
                    processingCounter := job.processingCounter - 1
                    decremented := job.decremented ++ [p] } ps).1.tracker.seen.length :=
              nodup_subset_length_le hnd2 (fun s hs => c3 s hs)
            have hdown := nodup_subset_length_le c1 (fun s hs => c2 s hs)
            simp only [List.length_cons] at hup
            omega
          · omega
        · rw [if_neg hpub]
          have hlt : job.tracker.seen.length + 1 < A.length := by
            rw [hcounter] at hpub
            simp only [List.length_cons] at hlenA
            omega
          rw [c5]
          simp only [List.length_cons, List.countP_nil, completedCount]
          by_cases hr : (runDecrements corrPairs k
              { job with
                tracker := { maxlen := job.tracker.maxlen, seen := p :: job.tracker.seen }
                processingCounter := job.processingCounter - 1
                decremented := job.decremented ++ [p] } ps).1.tracker.seen.length = A.length
          · rw [if_pos ⟨hr, by omega⟩, if_pos ⟨hr, by omega⟩]
          · rw [if_neg (by rintro ⟨hx, -⟩; exact hr hx),
              if_neg (by rintro ⟨hx, -⟩; exact hr hx)]

end CryptoPipeline

namespace CryptoPipeline

/-- Claim C1: for a timeframe job seeded with a duplicate-free coin list,
if every delivered decrement event is for an expected pair (BTC or a
tracked coin), every expected pair is eventually delivered, and the
expected pairs fit in the tracker capacity, then `AnalysisJobCompleted`
is published exactly once — whatever duplicates arrive, whether or not
`btc_rsi` is set when the counter reaches zero, and whether or not the
correlation pass raises (per-coin or in the outer `try`). -/
theorem analysis_job_completed_exactly_once (tf : String) (btcPresent : Bool)
    (coins evs corrPairs : List CoinPair) (outerRaiseAt : Option ℕ)
    (hnd : coins.Nodup)
    (hsub : ∀ e ∈ evs,
      e ∈ ("bitcoin", "btc") :: coins.filter (fun c => lowerStr c.2 ≠ "btc"))
    (hcov : ∀ a ∈ ("bitcoin", "btc") :: coins.filter (fun c => lowerStr c.2 ≠ "btc"),
      a ∈ evs)
    (hcap : (coins.filter (fun c => lowerStr c.2 ≠ "btc")).length + 1 ≤ 1000) :
    completedCount (runDecrements corrPairs outerRaiseAt
      (setCoinsToProcess (AnalysisJobState.init tf btcPresent) coins) evs).2 = 1 := by
  have hAnd : (("bitcoin", "btc") :: coins.filter (fun c => lowerStr c.2 ≠ "btc")).Nodup := by
    refine List.nodup_cons.mpr ⟨?_, hnd.filter _⟩
    intro hmem
    have hbtc := List.of_mem_filter hmem
    exact absurd hbtc (by decide)
  have hseen : (setCoinsToProcess (AnalysisJobState.init tf btcPresent) coins).tracker.seen
      = [] := rfl
  have hmaxlen :
      (setCoinsToProcess (AnalysisJobState.init tf btcPresent) coins).tracker.maxlen
      = 1000 := rfl
  obtain ⟨c1, c2, c3, c4, c5⟩ :=
    runDecrements_full (("bitcoin", "btc") :: coins.filter (fun c => lowerStr c.2 ≠ "btc"))
      corrPairs outerRaiseAt evs
      (setCoinsToProcess (AnalysisJobState.init tf btcPresent) coins)
      hsub
      (by rw [hseen]; intro s hs; exact absurd hs (List.not_mem_nil _))
      (by rw [hseen]; exact List.nodup_nil)
      (by rw [hmaxlen]; simpa using hcap)
      (by
        rw [hseen]
        simp only [List.length_cons, List.length_nil, Nat.cast_zero, sub_zero]
        show ((coins.filter (fun c => lowerStr c.2 ≠ "btc")).length : ℤ) + 1 =
          ((coins.filter (fun c => lowerStr c.2 ≠ "btc")).length + 1 : ℕ)
        push_cast
        ring)
  rw [c5, if_pos]
  constructor
  · have hup := nodup_subset_length_le hAnd (fun a ha => c4 a (hcov a ha))
    have hdown := nodup_subset_length_le c1 (fun s hs => c2 s hs)
    exact le_antisymm hdown hup
  · rw [hseen]
    simp

/-- Witness for `analysis_job_completed_exactly_once`: one coin plus BTC,
BTC RSI missing (degraded completion), no correlation events. -/
theorem analysis_job_completed_exactly_once_witness :
    completedCount (runDecrements [] none
      (setCoinsToProcess (AnalysisJobState.init "1d" false) [("ethereum", "eth")])
      [("bitcoin", "btc"), ("ethereum", "eth")]).2 = 1 :=
  analysis_job_completed_exactly_once "1d" false [("ethereum", "eth")]
    [("bitcoin", "btc"), ("ethereum", "eth")] [] none
    (by decide) (by decide) (by decide) (by decide)

/-- Claim C2: however many duplicate outcome events are delivered for a
fixed `(coin, timeframe)`, the job counter is effectively decremented at
most once for that pair (the ghost `decremented` history contains it at
most once), as long as the distinct pairs delivered to the job fit in the
idempotency tracker's capacity of 1000. -/
theorem decrement_at_most_once_per_pair (tf : String) (btcPresent : Bool)
    (coins evs corrPairs : List CoinPair) (outerRaiseAt : Option ℕ) (pair : CoinPair)
    (hcap : evs.dedup.length ≤ 1000) :
    ((runDecrements corrPairs outerRaiseAt
        (setCoinsToProcess (AnalysisJobState.init tf btcPresent) coins)
        evs).1.decremented.countP (fun q => decide (q = pair))) ≤ 1 := by
  have hseen : (setCoinsToProcess (AnalysisJobState.init tf btcPresent) coins).tracker.seen
      = [] := rfl
  have hmaxlen :
      (setCoinsToProcess (AnalysisJobState.init tf btcPresent) coins).tracker.maxlen
      = 1000 := rfl
  obtain ⟨c1, -, -, c4, -, -⟩ :=
    runDecrements_tracker evs.dedup corrPairs outerRaiseAt evs
      (setCoinsToProcess (AnalysisJobState.init tf btcPresent) coins)
      (fun e he => List.mem_dedup.mpr he)
      (by rw [hseen]; intro s hs; exact absurd hs (List.not_mem_nil _))
      (by rw [hseen]; exact List.nodup_nil)
      (by rw [hmaxlen]; exact hcap)
      (by rw [hseen]; rfl)
  have hghostnd : (runDecrements corrPairs outerRaiseAt
      (setCoinsToProcess (AnalysisJobState.init tf btcPresent) coins)
      evs).1.decremented.Nodup := by
    rw [c4] at c1
    exact List.nodup_reverse.mp c1
  exact List.nodup_iff_count_le_one.mp hghostnd pair

/-- Witness for `decrement_at_most_once_per_pair`: the same
`RSICalculated` outcome delivered three times decrements once. -/
theorem decrement_at_most_once_per_pair_witness :
    ((runDecrements [] none
        (setCoinsToProcess (AnalysisJobState.init "1h" true) [("ethereum", "eth")])
        [("ethereum", "eth"), ("ethereum", "eth"),
          ("ethereum", "eth")]).1.decremented.countP
      (fun q => decide (q = ("ethereum", "eth")))) ≤ 1 :=
  decrement_at_most_once_per_pair "1h" true [("ethereum", "eth")]
    [("ethereum", "eth"), ("ethereum", "eth"), ("ethereum", "eth")] [] none
    ("ethereum", "eth") (by decide)

end CryptoPipeline
